import Mathlib

/-!
A shallow embedding of the duzzy editor core: the rope-backed text buffer and
its coordinate model (src/duzzy-editor/src/buffer.rs), the transaction engine
(src/duzzy-editor/src/transaction.rs) and the command dispatcher
(src/src/command.rs), together with proofs about the properties the editor is
meant to maintain.

Modelling conventions: a rope is a `List Char`, one list element per byte
(the scenarios of interest are ASCII, where ropey's byte and char indices
coincide).  Operations that panic in ropey on out-of-range indices
(`Rope::insert`, `Rope::remove`) are `Option`-valued here, `none` standing for
the panic.  `usize` arithmetic with `saturating_sub` maps to truncated `Nat`
subtraction.
-/

namespace Duzzy

/-- A rope, one `Char` per byte. -/
abbrev Rope := List Char

/-- `Change { content, pos }` from transaction.rs. -/
structure Change where
  content : List Char
  pos : Nat
deriving Repr, DecidableEq

/-- `enum Action { Insert(Change), Delete(Change), Move(usize) }`. -/
inductive Action where
  | insert : Change → Action
  | delete : Change → Action
  | move : Nat → Action
deriving Repr, DecidableEq

/-- `Action::inverse`: Insert becomes Delete with the same change; Delete
becomes Insert with the stored content reversed back to forward order; Move
passes through. -/
def Action.inverse : Action → Action
  | .insert c => .delete c
  | .delete c => .insert ⟨c.content.reverse, c.pos⟩
  | .move p => .move p

/-- `struct Transaction { changes: Vec<Action> }`. -/
structure Transaction where
  changes : List Action
deriving Repr, DecidableEq

/-- `Transaction::new`. -/
def Transaction.new : Transaction := ⟨[]⟩

/-- `Transaction::inverse`: reverse the action list and invert each action. -/
def Transaction.inverse (t : Transaction) : Transaction :=
  ⟨t.changes.reverse.map Action.inverse⟩

/-- `ropey::Rope::insert(char_idx, text)`; panics (`none`) when the index is
past the end. -/
def ropeInsert (r : Rope) (pos : Nat) (s : List Char) : Option Rope :=
  if pos ≤ r.length then some (r.take pos ++ s ++ r.drop pos) else none

/-- `ropey::Rope::remove(start..stop)`; panics (`none`) on an invalid range. -/
def ropeRemove (r : Rope) (start stop : Nat) : Option Rope :=
  if start ≤ stop ∧ stop ≤ r.length then some (r.take start ++ r.drop stop)
  else none

/-- One iteration of the loop in `Transaction::apply`: the rope after the
action together with the `last_pos` the action reports. -/
def applyAction (r : Rope) : Action → Option (Rope × Nat)
  | .insert c => (ropeInsert r c.pos c.content).map fun r' =>
      (r', c.pos + c.content.length)
  | .delete c => (ropeRemove r c.pos (c.pos + c.content.length)).map fun r' =>
      (r', c.pos)
  | .move p => some (r, p)

/-- The loop of `Transaction::apply`, threading the rope and `last_pos`. -/
def applyGo : List Action → Rope → Option Nat → Option (Rope × Option Nat)
  | [], r, lp => some (r, lp)
  | a :: rest, r, _ =>
    match applyAction r a with
    | none => none
    | some (r', p) => applyGo rest r' (some p)

/-- `Transaction::apply(text) -> Option<usize>`, returning the mutated rope
alongside the `last_pos` result; `none` when some action panics. -/
def Transaction.apply (t : Transaction) (r : Rope) : Option (Rope × Option Nat) :=
  applyGo t.changes r none

/-- `Transaction::shift`: overwrite a trailing Move's target, else append. -/
def Transaction.shift (t : Transaction) (pos : Nat) : Transaction :=
  match t.changes.getLast? with
  | some (.move _) => ⟨t.changes.dropLast ++ [.move pos]⟩
  | _ => ⟨t.changes ++ [.move pos]⟩

/-- `Transaction::insert_impl` with `func` pushing `s`: extend a trailing
Insert's content, else append a fresh Insert. -/
def Transaction.insertImpl (t : Transaction) (pos : Nat) (s : List Char) :
    Transaction :=
  match t.changes.getLast? with
  | some (.insert c) => ⟨t.changes.dropLast ++ [.insert ⟨c.content ++ s, c.pos⟩]⟩
  | _ => ⟨t.changes ++ [.insert ⟨s, pos⟩]⟩

/-- `Transaction::insert_char`. -/
def Transaction.insert_char (t : Transaction) (pos : Nat) (ch : Char) :
    Transaction :=
  t.insertImpl pos [ch]

/-- `Transaction::insert_str`. -/
def Transaction.insert_str (t : Transaction) (pos : Nat) (s : List Char) :
    Transaction :=
  t.insertImpl pos s

/-- `Transaction::delete_impl` with `func` pushing `s`: re-point a trailing
Delete's anchor to `pos` and extend its content, else append a fresh Delete. -/
def Transaction.deleteImpl (t : Transaction) (pos : Nat) (s : List Char) :
    Transaction :=
  match t.changes.getLast? with
  | some (.delete c) => ⟨t.changes.dropLast ++ [.delete ⟨c.content ++ s, pos⟩]⟩
  | _ => ⟨t.changes ++ [.delete ⟨s, pos⟩]⟩

/-- `Transaction::delete_char`: record the deleted character at `pos`. -/
def Transaction.delete_char (t : Transaction) (pos : Nat) (ch : Char) :
    Transaction :=
  t.deleteImpl pos [ch]

/-- `Transaction::delete_str`: anchor at `pos.saturating_sub(len)` and store
the slice in reverse character order. -/
def Transaction.delete_str (t : Transaction) (pos : Nat) (s : List Char) :
    Transaction :=
  t.deleteImpl (pos - s.length) s.reverse

/-- The line terminator. -/
def newline : Char := '\n'

/-- `ropey::Rope::len_lines`: one more than the number of terminators. -/
def lenLines (r : Rope) : Nat := r.count newline + 1

/-- `ropey::Rope::line_to_byte(l)`: the byte index at which line `l` starts
(for `l` past the last line, the total length). -/
def lineToByte : Rope → Nat → Nat
  | _, 0 => 0
  | [], _ + 1 => 0
  | c :: rest, l + 1 =>
    if c = newline then 1 + lineToByte rest l else 1 + lineToByte rest (l + 1)

/-- `ropey::Rope::byte_to_line(p)`: the index of the line containing byte
`p`; a terminator belongs to the line it ends. -/
def byteToLine (r : Rope) (p : Nat) : Nat :=
  (r.take p).count newline

/-- `ropey::Rope::line(l).len_bytes()`: the byte length of line `l`,
terminator included on every line but the last. -/
def lineLen (r : Rope) (l : Nat) : Nat :=
  lineToByte r (l + 1) - lineToByte r l

/-- The addressable length of line `l` (spec §3): the full byte length for
the last line, one less (the terminator) for every other line.  This is the
clamp bound computed inside `Command::cursor_line_bounds`. -/
def addressable (r : Rope) (l : Nat) : Nat :=
  lineLen r l - (if l < lenLines r - 1 then 1 else 0)

/-- `enum CursorMode { Insert, Normal, Visual }` from buffer.rs. -/
inductive CursorMode where
  | insert
  | normal
  | visual
deriving Repr, DecidableEq

/-- `struct Buffer { text, index, offset, vscroll, mode }` from buffer.rs. -/
structure Buffer where
  text : Rope
  index : Nat
  offset : Nat
  vscroll : Nat
  mode : CursorMode
deriving Repr, DecidableEq

/-- `Buffer::as_byte_pos`: absolute byte position of the cursor. -/
def Buffer.as_byte_pos (b : Buffer) : Nat :=
  b.offset + lineToByte b.text b.index

/-- `Buffer::as_curs_pos`: (line, intra-line offset) of an absolute byte
position. -/
def Buffer.as_curs_pos (b : Buffer) (pos : Nat) : Nat × Nat :=
  let index := byteToLine b.text pos
  let start := lineToByte b.text index
  (index, pos - start)

/-- `Buffer::update_vscroll(max)` from buffer.rs. -/
def Buffer.update_vscroll (b : Buffer) (max : Nat) : Buffer :=
  if b.index < b.vscroll then { b with vscroll := b.index }
  else if b.index > b.vscroll + max - 1 then
    { b with vscroll := b.index - max + 1 }
  else b

/-!
The command module (src/src/command.rs).  Its `Buffer` accessors
(`cursor_position`, `line_index`, `cursor_offset`, `vscroll_index`) are the
counterparts of `as_byte_pos`, `index`, `offset` and `vscroll` of buffer.rs,
which is how they are modelled here.
-/

/-- `Command::scroll(buffer, max)` from command.rs. -/
def scroll (b : Buffer) (max : Nat) : Buffer :=
  let lower_bound := b.vscroll
  let upper_bound := lower_bound + max - 1
  if b.index ≥ upper_bound then
    { b with vscroll := lower_bound + b.index - upper_bound }
  else if b.index < lower_bound then { b with vscroll := b.index }
  else b

/-- `Command::cursor_line_bounds`: clamp the offset to the current line's
content length (terminator excluded on every line but the last). -/
def cursor_line_bounds (b : Buffer) : Buffer :=
  if b.offset > addressable b.text b.index then
    { b with offset := addressable b.text b.index }
  else b

/-- `Command::move_cursor_back_by`: saturating offset decrease, no
re-clamping. -/
def move_cursor_back_by (b : Buffer) (n : Nat) : Buffer :=
  { b with offset := b.offset - n }

/-- `Command::move_cursor_forward_by`: offset increase, then re-clamp. -/
def move_cursor_forward_by (b : Buffer) (n : Nat) : Buffer :=
  cursor_line_bounds { b with offset := b.offset + n }

/-- `Command::move_cursor_up_by`: saturating line decrease, then re-clamp. -/
def move_cursor_up_by (b : Buffer) (n : Nat) : Buffer :=
  cursor_line_bounds { b with index := b.index - n }

/-- `Command::move_cursor_down_by`: line increase guarded by the line count,
then re-clamp. -/
def move_cursor_down_by (b : Buffer) (n : Nat) : Buffer :=
  cursor_line_bounds
    (if b.index + n < lenLines b.text then { b with index := b.index + n }
     else b)

/-- `Command::insert_char`: insert at the cursor's absolute position and
advance the offset; `none` when the rope insert panics. -/
def insertCharBuf (b : Buffer) (ch : Char) : Option Buffer :=
  (ropeInsert b.text b.as_byte_pos [ch]).map fun t =>
    { b with text := t, offset := b.offset + 1 }

/-- `Command::new_line`: insert a terminator, reset the offset, advance the
line index. -/
def new_line (b : Buffer) : Option Buffer :=
  (insertCharBuf b newline).map fun b' =>
    { b' with offset := 0, index := b'.index + 1 }

/-- `Command::delete_char`: a no-op at absolute position 0; at the start of a
later line, first move up to the end of the previous line; then remove the
byte before the original position and step back. -/
def delete_char (b : Buffer) : Option Buffer :=
  let pos := b.as_byte_pos
  if pos ≠ 0 then
    let b1 :=
      if b.offset = 0 then
        let b' := move_cursor_up_by b 1
        { b' with offset := lineLen b'.text b'.index }
      else b
    (ropeRemove b1.text (pos - 1) pos).map fun t =>
      move_cursor_back_by { b1 with text := t } 1
  else some b

/-- `Command::move_cursor_to_line_end`. -/
def move_cursor_to_line_end (b : Buffer) : Buffer :=
  cursor_line_bounds { b with offset := lineLen b.text b.index }

/-- `Command::to_insert_move_end`. -/
def to_insert_move_end (b : Buffer) : Buffer :=
  { move_cursor_to_line_end b with mode := CursorMode.insert }

/-- `Command::to_insert_move_start`. -/
def to_insert_move_start (b : Buffer) : Buffer :=
  { b with offset := 0, mode := CursorMode.insert }

/-- `Command::to_insert_new_line_next`. -/
def to_insert_new_line_next (b : Buffer) : Option Buffer :=
  (new_line (move_cursor_to_line_end b)).map fun b' =>
    { b' with mode := CursorMode.insert }

/-- `Command::to_insert_new_line_prev`. -/
def to_insert_new_line_prev (b : Buffer) : Option Buffer :=
  let step :=
    if b.index = 0 then
      (new_line { b with offset := 0 }).map fun b' => move_cursor_up_by b' 1
    else to_insert_new_line_next (move_cursor_up_by b 1)
  step.map fun b' => { b' with mode := CursorMode.insert }

/-- `enum CommandType` from command.rs. -/
inductive CommandType where
  | switchToInsertMode
  | switchToNormalMode
  | moveBack
  | moveDown
  | moveUp
  | moveForward
  | switchToInsertLineEnd
  | switchToInsertLineStart
  | switchToInsertNewLineNext
  | switchToInsertNewLinePrev
  | goToStartLine
  | goToEndLine
  | deleteChar
  | newLine
deriving Repr, DecidableEq

/-- The `Leaf` match of `Command::execute`: run one command on the buffer;
`none` models a panic (`todo!()` for the GoTo commands, or a rope
out-of-range panic). -/
def execCommand : CommandType → Buffer → Option Buffer
  | .switchToInsertMode, b => some { b with mode := CursorMode.insert }
  | .switchToNormalMode, b => some { b with mode := CursorMode.normal }
  | .moveBack, b => some (move_cursor_back_by b 1)
  | .moveDown, b => some (move_cursor_down_by b 1)
  | .moveUp, b => some (move_cursor_up_by b 1)
  | .moveForward, b => some (move_cursor_forward_by b 1)
  | .switchToInsertLineEnd, b => some (to_insert_move_end b)
  | .switchToInsertLineStart, b => some (to_insert_move_start b)
  | .switchToInsertNewLineNext, b => to_insert_new_line_next b
  | .switchToInsertNewLinePrev, b => to_insert_new_line_prev b
  | .goToStartLine, _ => none
  | .goToEndLine, _ => none
  | .deleteChar, b => delete_char b
  | .newLine, b => new_line b

/-- An input key event: a character or a named key. -/
inductive Event where
  | char : Char → Event
  | named : String → Event
deriving Repr, DecidableEq

/-- `struct Input { event, ctrl, alt }` from the event module. -/
structure Input where
  event : Event
  ctrl : Bool
  alt : Bool
deriving Repr, DecidableEq

/-- `enum KeymapNode { Leaf(CommandType), Node(Keymap) }`; a subtrie maps
events to child nodes. -/
inductive KeymapNode where
  | leaf : CommandType → KeymapNode
  | node : List (Event × KeymapNode) → KeymapNode

/-- Modelled from the spec: the keymap module itself is not among the
sources; per §4.3 a trie level maps a key event to the bound child node, so
`Keymap::get` and the subtrie `get` are structural lookups. -/
def kmGet (children : List (Event × KeymapNode)) (e : Event) :
    Option KeymapNode :=
  (children.find? (fun p => p.1 = e)).map Prod.snd

/-- `Command::execute(input, buffer, keymap)`: the dispatcher state is
`current_node` (`none` = Idle).  Mirrors command.rs exactly: a pending node
is matched directly (the input is not looked up in it when it is a `Leaf`,
and the `Leaf` branch leaves `current_node` untouched), while the `Node`
branch looks the current input up among the children. -/
def execute (st : Option KeymapNode) (inp : Input) (b : Buffer)
    (km : List (Event × KeymapNode)) : Option (Option KeymapNode × Buffer) :=
  let keymap_node :=
    match st with
    | some node => some node
    | none => kmGet km inp.event
  match keymap_node with
  | none => some (st, b)
  | some (.leaf ct) => (execCommand ct b).map fun b' => (st, b')
  | some (.node next) => some (kmGet next inp.event, b)

/-- C5: from the empty rope, the four-character insert transaction yields
"test", and the subsequent delete/shift/insert transaction applied to "test"
yields "te te". -/
theorem c5_end_to_end_scenario :
    ((((Transaction.new.insert_char 0 't').insert_char 1 'e').insert_char 2
          's').insert_char 3 't').apply [] =
        some (['t', 'e', 's', 't'], some 4) ∧
      ((((((((Transaction.new.delete_char 3 't').delete_char 2 's').shift
          1).shift 0).insert_char 0 ' ').shift 0).insert_char 0
          't').insert_char 1 'e').apply ['t', 'e', 's', 't'] =
        some (['t', 'e', ' ', 't', 'e'], some 2) := by decide

/-- C7: deleting at position 3 then position 2 of "test" coalesces into a
single Delete action anchored at 2 whose stored content is "ts" (reverse
order, so "st" forward), and applying the transaction leaves "te". -/
theorem c7_delete_coalescing :
    ((Transaction.new.delete_char 3 't').delete_char 2 's').changes =
        [Action.delete ⟨['t', 's'], 2⟩] ∧
      (['t', 's'] : List Char).reverse = ['s', 't'] ∧
      ((Transaction.new.delete_char 3 't').delete_char 2 's').apply
          ['t', 'e', 's', 't'] =
        some (['t', 'e'], some 2) := by decide

/-- C4: with height at least 1, `update_vscroll` leaves the cursor line
inside the window `[vscroll, vscroll + height - 1]`; it is the identity when
the line was already visible, and otherwise moves the window edge exactly to
the cursor line (upward) or places the line on the last row (downward), the
minimal shift in either direction. -/
theorem c4_update_vscroll_window (b : Buffer) (max : Nat) (h : 1 ≤ max) :
    ((b.update_vscroll max).vscroll ≤ b.index ∧
        b.index ≤ (b.update_vscroll max).vscroll + max - 1) ∧
      (b.vscroll ≤ b.index → b.index ≤ b.vscroll + max - 1 →
        b.update_vscroll max = b) ∧
      (b.index < b.vscroll → (b.update_vscroll max).vscroll = b.index) ∧
      (b.vscroll + max - 1 < b.index →
        (b.update_vscroll max).vscroll = b.index - max + 1) := by
  unfold Buffer.update_vscroll
  split_ifs with h1 h2
  · exact ⟨⟨le_refl _, by dsimp only; omega⟩,
      fun hx _ => absurd h1 (by omega), fun _ => rfl,
      fun hd => absurd hd (by omega)⟩
  · exact ⟨⟨by dsimp only; omega, by dsimp only; omega⟩,
      fun _ hy => absurd h2 (by omega), fun hc => absurd hc (by omega),
      fun _ => rfl⟩
  · exact ⟨⟨by omega, by omega⟩, fun _ _ => rfl,
      fun hc => absurd hc (by omega), fun hd => absurd hd (by omega)⟩

/-- Witness for C4 at a concrete buffer: cursor on line 7 with the window
`[2, 4]` of height 3 scrolls to `vscroll = 5`. -/
theorem c4_update_vscroll_window_witness :
    ((⟨[], 7, 0, 2, CursorMode.normal⟩ : Buffer).update_vscroll 3).vscroll =
      7 - 3 + 1 :=
  (c4_update_vscroll_window ⟨[], 7, 0, 2, CursorMode.normal⟩ 3
    (by decide)).2.2.2 (by decide)

/-- The cursor position an action reports inside `Transaction::apply`. -/
def actionEndPos : Action → Nat
  | .insert c => c.pos + c.content.length
  | .delete c => c.pos
  | .move p => p

theorem applyAction_endPos {r r' : Rope} {a : Action} {p : Nat}
    (h : applyAction r a = some (r', p)) : p = actionEndPos a := by
  cases a with
  | insert c =>
    simp only [applyAction, ropeInsert, Option.map] at h
    split_ifs at h; simp_all [actionEndPos]
  | delete c =>
    simp only [applyAction, ropeRemove, Option.map] at h
    split_ifs at h; simp_all [actionEndPos]
  | move q => simp_all [applyAction, actionEndPos]

theorem applyGo_append (xs ys : List Action) (r : Rope) (lp : Option Nat) :
    applyGo (xs ++ ys) r lp =
      match applyGo xs r lp with
      | none => none
      | some (r', lp') => applyGo ys r' lp' := by
  induction xs generalizing r lp with
  | nil => rfl
  | cons a rest ih =>
    simp only [List.cons_append, applyGo]
    cases applyAction r a with
    | none => rfl
    | some q => exact ih q.1 (some q.2)

theorem applyGo_last (acts : List Action) (r : Rope) (lp : Option Nat)
    (r' : Rope) (lp' : Option Nat) (h : applyGo acts r lp = some (r', lp')) :
    (acts = [] ∧ lp' = lp) ∨
      ∃ a, acts.getLast? = some a ∧ lp' = some (actionEndPos a) := by
  induction acts generalizing r lp with
  | nil =>
    simp only [applyGo, Option.some.injEq] at h
    exact Or.inl ⟨rfl, (congrArg Prod.snd h).symm⟩
  | cons a rest ih =>
    simp only [applyGo] at h
    cases ha : applyAction r a with
    | none => rw [ha] at h; exact absurd h (by simp)
    | some q =>
      obtain ⟨r₁, p⟩ := q
      rw [ha] at h
      rcases ih r₁ (some p) h with ⟨hrest, hlp⟩ | ⟨a', hlast, hlp⟩
      · subst hrest
        refine Or.inr ⟨a, by simp, ?_⟩
        rw [hlp, applyAction_endPos ha]
      · refine Or.inr ⟨a', ?_, hlp⟩
        cases rest with
        | nil => simp at hlast
        | cons b bs => simpa using hlast

/-- C8: `apply` runs the actions strictly in recorded order (running a
concatenation is running the prefix and then the suffix on its outcome); when
it completes, its reported position is `none` exactly for an empty
transaction, and otherwise it is the last action's resulting position:
`pos + length(content)` for an Insert, `pos` for a Delete or a Move. -/
theorem c8_apply_order_and_result :
    (∀ (xs ys : List Action) (r : Rope) (lp : Option Nat),
        applyGo (xs ++ ys) r lp =
          match applyGo xs r lp with
          | none => none
          | some (r', lp') => applyGo ys r' lp') ∧
      (∀ (t : Transaction) (r : Rope) (res : Rope × Option Nat),
          t.apply r = some res → (res.2 = none ↔ t.changes = [])) ∧
      (∀ (t : Transaction) (r : Rope) (res : Rope × Option Nat) (a : Action),
          t.apply r = some res → t.changes.getLast? = some a →
          res.2 = some (actionEndPos a)) := by
  refine ⟨applyGo_append, ?_, ?_⟩
  · intro t r res h
    rcases applyGo_last t.changes r none res.1 res.2 (by simpa using h) with
      ⟨he, hlp⟩ | ⟨a, hlast, hlp⟩
    · simp [he, hlp]
    · constructor
      · intro hn; rw [hn] at hlp; exact absurd hlp.symm (by simp)
      · intro he; rw [he] at hlast; exact absurd hlast (by simp)
  · intro t r res a h hlast
    rcases applyGo_last t.changes r none res.1 res.2 (by simpa using h) with
      ⟨he, _⟩ | ⟨a', hlast', hlp⟩
    · rw [he] at hlast; exact absurd hlast (by simp)
    · rw [hlast] at hlast'
      cases hlast'
      exact hlp

/-- Witness for C8: the one-action transaction `Move 5` on the empty rope
reports position 5, which is the last action's resulting position and is not
`none`. -/
theorem c8_apply_order_and_result_witness :
    ((some 5 : Option Nat) = none ↔
        (Transaction.mk [Action.move 5]).changes = []) ∧
      (some 5 : Option Nat) = some (actionEndPos (Action.move 5)) :=
  ⟨c8_apply_order_and_result.2.1 ⟨[Action.move 5]⟩ [] ([], some 5) rfl,
    c8_apply_order_and_result.2.2 ⟨[Action.move 5]⟩ [] ([], some 5)
      (Action.move 5) rfl rfl⟩

theorem insertImpl_merges {t : Transaction} {c : Change}
    (h : t.changes.getLast? = some (.insert c)) (pos : Nat) (s : List Char) :
    (t.insertImpl pos s).changes =
      t.changes.dropLast ++ [.insert ⟨c.content ++ s, c.pos⟩] := by
  simp only [Transaction.insertImpl, h]

theorem insertImpl_appends {t : Transaction}
    (h : ∀ c, t.changes.getLast? ≠ some (.insert c)) (pos : Nat)
    (s : List Char) :
    (t.insertImpl pos s).changes = t.changes ++ [.insert ⟨s, pos⟩] := by
  rcases hl : t.changes.getLast? with _ | a
  · simp [Transaction.insertImpl, hl]
  · cases a with
    | insert c => exact absurd hl (h c)
    | delete c => simp [Transaction.insertImpl, hl]
    | move p => simp [Transaction.insertImpl, hl]

/-- C6: an `insert_char`/`insert_str` call extends the last action's content
(keeping its position) exactly when that last action is an Insert, and
otherwise appends a fresh Insert; inserting 'a','b','c' at 0,1,2 into a fresh
transaction hence yields the single action `Insert { content: "abc", pos: 0 }`. -/
theorem c6_insert_coalescing :
    (∀ (t : Transaction) (pos : Nat) (ch : Char) (c : Change),
        t.changes.getLast? = some (.insert c) →
        (t.insert_char pos ch).changes =
          t.changes.dropLast ++ [.insert ⟨c.content ++ [ch], c.pos⟩]) ∧
      (∀ (t : Transaction) (pos : Nat) (s : List Char) (c : Change),
          t.changes.getLast? = some (.insert c) →
          (t.insert_str pos s).changes =
            t.changes.dropLast ++ [.insert ⟨c.content ++ s, c.pos⟩]) ∧
      (∀ (t : Transaction) (pos : Nat) (ch : Char),
          (∀ c, t.changes.getLast? ≠ some (.insert c)) →
          (t.insert_char pos ch).changes =
            t.changes ++ [.insert ⟨[ch], pos⟩]) ∧
      (∀ (t : Transaction) (pos : Nat) (s : List Char),
          (∀ c, t.changes.getLast? ≠ some (.insert c)) →
          (t.insert_str pos s).changes = t.changes ++ [.insert ⟨s, pos⟩]) ∧
      (((Transaction.new.insert_char 0 'a').insert_char 1 'b').insert_char 2
          'c').changes = [.insert ⟨['a', 'b', 'c'], 0⟩] :=
  ⟨fun _ pos ch _ h => insertImpl_merges h pos [ch],
    fun _ pos s _ h => insertImpl_merges h pos s,
    fun _ pos ch h => insertImpl_appends h pos [ch],
    fun _ pos s h => insertImpl_appends h pos s, by decide⟩

/-- Witness for C6: appending 'b' to a transaction ending in
`Insert { content: "a", pos: 0 }` merges into `Insert { content: "ab", pos: 0 }`,
while a fresh transaction gets a new Insert action. -/
theorem c6_insert_coalescing_witness :
    (Transaction.insert_char ⟨[Action.insert ⟨['a'], 0⟩]⟩ 5 'b').changes =
        [Action.insert ⟨['a'], 0⟩].dropLast ++ [Action.insert ⟨['a', 'b'], 0⟩] ∧
      (Transaction.new.insert_char 7 'z').changes =
        Transaction.new.changes ++ [Action.insert ⟨['z'], 7⟩] :=
  ⟨c6_insert_coalescing.1 ⟨[Action.insert ⟨['a'], 0⟩]⟩ 5 'b' ⟨['a'], 0⟩ rfl,
    c6_insert_coalescing.2.2.1 Transaction.new 7 'z'
      (fun _ h => Option.noConfusion h)⟩

theorem deleteImpl_last (t : Transaction) (pos : Nat) (s : List Char) :
    ∃ c : Change, (t.deleteImpl pos s).changes.getLast? =
      some (.delete c) ∧ c.pos = pos := by
  rcases hl : t.changes.getLast? with _ | a
  · exact ⟨⟨s, pos⟩, by simp [Transaction.deleteImpl, hl], rfl⟩
  · cases a with
    | insert c => exact ⟨⟨s, pos⟩, by simp [Transaction.deleteImpl, hl], rfl⟩
    | delete c =>
      exact ⟨⟨c.content ++ s, pos⟩, by simp [Transaction.deleteImpl, hl], rfl⟩
    | move p => exact ⟨⟨s, pos⟩, by simp [Transaction.deleteImpl, hl], rfl⟩

/-- C10: `delete_str(p, s)` anchors its Delete action at `p` minus the
character count of `s` (saturating), so `p` is the position just past the
deleted text, while `delete_char(p, ch)` anchors at `p` itself; hence for any
`p ≥ 1` the two record different actions for the same single character. -/
theorem c10_delete_anchor_asymmetry :
    (∀ (t : Transaction) (p : Nat) (s : List Char),
        ∃ c : Change, (t.delete_str p s).changes.getLast? =
          some (.delete c) ∧ c.pos = p - s.length) ∧
      (∀ (t : Transaction) (p : Nat) (ch : Char),
          ∃ c : Change, (t.delete_char p ch).changes.getLast? =
            some (.delete c) ∧ c.pos = p) ∧
      (∀ (p : Nat) (ch : Char), 1 ≤ p →
          (Transaction.new.delete_str p [ch]).changes ≠
            (Transaction.new.delete_char p ch).changes) := by
  refine ⟨fun t p s => deleteImpl_last t (p - s.length) s.reverse,
    fun t p ch => deleteImpl_last t p [ch], ?_⟩
  intro p ch hp h
  simp [Transaction.delete_str, Transaction.delete_char,
    Transaction.deleteImpl, Transaction.new] at h
  omega

/-- Witness for C10: `delete_str(1, "x")` records `Delete { pos: 0 }` while
`delete_char(1, 'x')` records `Delete { pos: 1 }`. -/
theorem c10_delete_anchor_asymmetry_witness :
    (Transaction.new.delete_str 1 ['x']).changes ≠
      (Transaction.new.delete_char 1 'x').changes :=
  c10_delete_anchor_asymmetry.2.2 1 'x' (by decide)

/-- Like `applyAction`, but a Delete additionally demands that the text it
removes is exactly the recorded content (read back in forward order).  The
transaction engine records deletions from its callers' arguments and never
reads the rope, so this is the condition under which a recorded Delete
describes the rope it is applied to. -/
def applyExactAction (r : Rope) : Action → Option (Rope × Nat)
  | .delete c =>
    if (r.drop c.pos).take c.content.length = c.content.reverse then
      applyAction r (.delete c)
    else none
  | a => applyAction r a

/-- The loop of `Transaction::apply` under the exactness condition of
`applyExactAction`. -/
def applyExactGo : List Action → Rope → Option Nat → Option (Rope × Option Nat)
  | [], r, lp => some (r, lp)
  | a :: rest, r, _ =>
    match applyExactAction r a with
    | none => none
    | some (r', p) => applyExactGo rest r' (some p)

theorem applyExactAction_sound {r : Rope} {a : Action} {x : Rope × Nat}
    (h : applyExactAction r a = some x) : applyAction r a = some x := by
  cases a with
  | insert c => exact h
  | move p => exact h
  | delete c =>
    simp only [applyExactAction] at h
    split_ifs at h
    exact h

theorem applyExactGo_sound {acts : List Action} {r : Rope} {lp : Option Nat}
    {x : Rope × Option Nat} (h : applyExactGo acts r lp = some x) :
    applyGo acts r lp = some x := by
  induction acts generalizing r lp with
  | nil => exact h
  | cons a rest ih =>
    simp only [applyExactGo] at h
    cases ha : applyExactAction r a with
    | none => rw [ha] at h; exact absurd h (by simp)
    | some q =>
      rw [ha] at h
      simp only [applyGo, applyExactAction_sound ha]
      exact ih h

theorem applyExactAction_inverse {r r' : Rope} {a : Action} {p : Nat}
    (h : applyExactAction r a = some (r', p)) :
    ∃ q, applyAction r' a.inverse = some (r, q) := by
  cases a with
  | move m =>
    simp only [applyExactAction, applyAction, Option.some.injEq,
      Prod.mk.injEq] at h
    exact ⟨m, by simp [Action.inverse, applyAction, h.1]⟩
  | insert c =>
    simp only [applyExactAction, applyAction, ropeInsert] at h
    split_ifs at h with hle
    · simp only [Option.map_some', Option.some.injEq, Prod.mk.injEq] at h
      obtain ⟨hr, -⟩ := h
      subst hr
      have hL : (r.take c.pos).length = c.pos := List.length_take_of_le hle
      refine ⟨c.pos, ?_⟩
      simp only [Action.inverse, applyAction, ropeRemove]
      have hcond : c.pos ≤ c.pos + c.content.length ∧
          c.pos + c.content.length ≤
            (r.take c.pos ++ c.content ++ r.drop c.pos).length := by
        simp only [List.length_append, hL, List.length_drop]
        omega
      rw [if_pos hcond]
      have h1 : (r.take c.pos ++ c.content ++ r.drop c.pos).take c.pos =
          r.take c.pos := by
        rw [List.append_assoc, List.take_left' hL]
      have h2 : (r.take c.pos ++ c.content ++ r.drop c.pos).drop
          (c.pos + c.content.length) = r.drop c.pos :=
        List.drop_left' (by simp [hL])
      simp only [Option.map_some', Option.some.injEq, Prod.mk.injEq, h1, h2]
      exact ⟨List.take_append_drop c.pos r, trivial⟩
    · exact absurd h (by simp)
  | delete c =>
    simp only [applyExactAction] at h
    split_ifs at h with hsl
    · simp only [applyAction, ropeRemove] at h
      split_ifs at h with hrange
      · simp only [Option.map_some', Option.some.injEq, Prod.mk.injEq] at h
        obtain ⟨hr, -⟩ := h
        subst hr
        obtain ⟨-, hle2⟩ := hrange
        have hposle : c.pos ≤ r.length := by omega
        have hL : (r.take c.pos).length = c.pos := List.length_take_of_le hposle
        refine ⟨c.pos + c.content.reverse.length, ?_⟩
        simp only [Action.inverse, applyAction, ropeInsert]
        have hcond : c.pos ≤
            (r.take c.pos ++ r.drop (c.pos + c.content.length)).length := by
          simp only [List.length_append, hL, List.length_drop]
          omega
        rw [if_pos hcond]
        have h1 : (r.take c.pos ++ r.drop (c.pos + c.content.length)).take
            c.pos = r.take c.pos := List.take_left' hL
        have h2 : (r.take c.pos ++ r.drop (c.pos + c.content.length)).drop
            c.pos = r.drop (c.pos + c.content.length) := List.drop_left' hL
        simp only [Option.map_some', Option.some.injEq, Prod.mk.injEq, h1, h2]
        refine ⟨?_, trivial⟩
        rw [← hsl, List.append_assoc, List.drop_take_append_drop,
          List.take_append_drop]
      · exact absurd h (by simp)

theorem applyExactGo_inverse (acts : List Action) (r' : Rope)
    (lp' : Option Nat) :
    ∀ (r : Rope) (lp lq : Option Nat),
      applyExactGo acts r lp = some (r', lp') →
      ∃ lq', applyGo (acts.reverse.map Action.inverse) r' lq =
        some (r, lq') := by
  induction acts with
  | nil =>
    intro r lp lq h
    simp only [applyExactGo, Option.some.injEq, Prod.mk.injEq] at h
    obtain ⟨rfl, rfl⟩ := h
    exact ⟨lq, rfl⟩
  | cons a rest ih =>
    intro r lp lq h
    simp only [applyExactGo] at h
    cases ha : applyExactAction r a with
    | none => rw [ha] at h; exact absurd h (by simp)
    | some q =>
      obtain ⟨r₁, p⟩ := q
      rw [ha] at h
      obtain ⟨lq₁, hrest⟩ := ih r₁ (some p) lq h
      obtain ⟨q', hq⟩ := applyExactAction_inverse ha
      refine ⟨some q', ?_⟩
      have hlist : (a :: rest).reverse.map Action.inverse =
          rest.reverse.map Action.inverse ++ [a.inverse] := by simp
      rw [hlist, applyGo_append, hrest]
      simp only [applyGo, hq]

/-- C1 as stated fails on the code: the single-call transaction
`delete_char(0, 'x')` applied to the rope "a" removes the 'a', but its
inverse re-inserts the recorded 'x' — the engine records deletions from the
caller's arguments and never reads the rope, so the round trip restores "x",
not "a". -/
theorem c1_undo_round_trip_counterexample :
    (Transaction.new.delete_char 0 'x').apply ['a'] = some ([], some 0) ∧
      (Transaction.new.delete_char 0 'x').inverse.apply [] =
        some (['x'], some 1) ∧
      (['x'] : Rope) ≠ ['a'] := by decide

/-- C1 (amended): for every transaction `T` and rope `R` on which `T` applies
exactly — every action's position is in range and every Delete action removes
precisely the text it has recorded — `T.apply` succeeds producing `R'`, and
applying `T.inverse()` to `R'` reproduces `R` byte for byte. -/
theorem c1_undo_round_trip (t : Transaction) (r r' : Rope) (lp : Option Nat)
    (h : applyExactGo t.changes r none = some (r', lp)) :
    t.apply r = some (r', lp) ∧
      ∃ lp', t.inverse.apply r' = some (r, lp') :=
  ⟨applyExactGo_sound h, applyExactGo_inverse t.changes r' lp r none none h⟩

/-- Witness for C1: backspacing the 'e' of "te" (recording the deleted 'e')
applies exactly, and the inverse restores "te". -/
theorem c1_undo_round_trip_witness :
    (Transaction.new.delete_char 1 'e').apply ['t', 'e'] =
        some (['t'], some 1) ∧
      ∃ lp', (Transaction.new.delete_char 1 'e').inverse.apply ['t'] =
        some (['t', 'e'], lp') :=
  c1_undo_round_trip (Transaction.new.delete_char 1 'e') ['t', 'e'] ['t']
    (some 1) (by decide)

theorem lineToByte_zero (r : Rope) : lineToByte r 0 = 0 := by
  cases r <;> rfl

theorem lineToByte_cons (c : Char) (rest : Rope) (l : Nat) :
    lineToByte (c :: rest) (l + 1) =
      if c = newline then 1 + lineToByte rest l
      else 1 + lineToByte rest (l + 1) := rfl

theorem lineToByte_succ_pos (c : Char) (rest : Rope) (l : Nat) :
    1 ≤ lineToByte (c :: rest) (l + 1) := by
  rw [lineToByte_cons]
  split_ifs <;> omega

theorem lenLines_pos (r : Rope) : 1 ≤ lenLines r := by
  unfold lenLines
  omega

theorem lenLines_cons (c : Char) (rest : Rope) :
    lenLines (c :: rest) = lenLines rest + (if c = newline then 1 else 0) := by
  unfold lenLines
  rw [List.count_cons]
  by_cases hc : c = newline
  · simp [hc]
  · simp [hc]

theorem lineToByte_one_pos (rest : Rope) (h : 2 ≤ lenLines rest) :
    1 ≤ lineToByte rest 1 := by
  cases rest with
  | nil => simp [lenLines, List.count_nil] at h
  | cons c rs => exact lineToByte_succ_pos c rs 0

theorem addressable_cons_zero_nl (rest : Rope) :
    addressable (newline :: rest) 0 = 0 := by
  unfold addressable lineLen
  simp only [lineToByte_zero]
  rw [lineToByte_cons, if_pos rfl, lenLines_cons, if_pos rfl]
  simp only [lineToByte_zero]
  rw [if_pos (by have := lenLines_pos rest; omega :
    (0 : Nat) < lenLines rest + 1 - 1)]

theorem addressable_cons_zero_not {c : Char} (hc : c ≠ newline) (rest : Rope) :
    addressable (c :: rest) 0 = 1 + addressable rest 0 := by
  unfold addressable lineLen
  simp only [lineToByte_zero]
  rw [lineToByte_cons, if_neg hc, lenLines_cons, if_neg hc]
  simp only [Nat.add_zero, Nat.zero_add]
  by_cases hd : 0 < lenLines rest - 1
  · have := lineToByte_one_pos rest (by omega)
    rw [if_pos hd]
    omega
  · rw [if_neg hd]
    omega

theorem addressable_cons_nl (rest : Rope) (l : Nat) :
    addressable (newline :: rest) (l + 1) = addressable rest l := by
  have hp := lenLines_pos rest
  unfold addressable lineLen
  rw [lineToByte_cons, if_pos rfl, lineToByte_cons, if_pos rfl,
    lenLines_cons, if_pos rfl]
  by_cases hd : l < lenLines rest - 1
  · rw [if_pos (by omega : l + 1 < lenLines rest + 1 - 1), if_pos hd]
    omega
  · rw [if_neg (by omega : ¬l + 1 < lenLines rest + 1 - 1), if_neg hd]
    omega

theorem addressable_cons_not {c : Char} (hc : c ≠ newline) (rest : Rope)
    (l : Nat) : addressable (c :: rest) (l + 1) = addressable rest (l + 1) := by
  unfold addressable lineLen
  rw [lineToByte_cons, if_neg hc, lineToByte_cons, if_neg hc,
    lenLines_cons, if_neg hc]
  simp only [Nat.add_zero]
  by_cases hd : l + 1 < lenLines rest - 1
  · rw [if_pos hd]
    omega
  · rw [if_neg hd]
    omega

theorem count_take_lineToByte (r : Rope) :
    ∀ l o, l < lenLines r → o ≤ addressable r l →
      (List.take (lineToByte r l + o) r).count newline = l := by
  induction r with
  | nil =>
    intro l o h1 h2
    have hl : l = 0 := by
      unfold lenLines at h1
      simp only [List.count_nil] at h1
      omega
    subst hl
    have ho : o = 0 := by
      unfold addressable lineLen at h2
      simp only [lineToByte] at h2
      omega
    subst ho
    simp [lineToByte]
  | cons c rest ih =>
    intro l o h1 h2
    have hp := lenLines_pos rest
    cases l with
    | zero =>
      simp only [lineToByte_zero, Nat.zero_add]
      cases o with
      | zero => simp
      | succ o' =>
        by_cases hc : c = newline
        · exfalso
          rw [hc, addressable_cons_zero_nl] at h2
          omega
        · rw [List.take_succ_cons, List.count_cons]
          rw [addressable_cons_zero_not hc] at h2
          have hcount := ih 0 o' (by omega) (by omega)
          simp only [lineToByte_zero, Nat.zero_add] at hcount
          simp [hcount, hc]
    | succ l' =>
      by_cases hc : c = newline
      · subst hc
        rw [lineToByte_cons, if_pos rfl]
        rw [show 1 + lineToByte rest l' + o = lineToByte rest l' + o + 1 by
          omega]
        rw [List.take_succ_cons, List.count_cons]
        rw [addressable_cons_nl] at h2
        rw [lenLines_cons, if_pos rfl] at h1
        have hcount := ih l' o (by omega) h2
        simp [hcount]
      · rw [lineToByte_cons, if_neg hc]
        rw [show 1 + lineToByte rest (l' + 1) + o =
            lineToByte rest (l' + 1) + o + 1 by omega]
        rw [List.take_succ_cons, List.count_cons]
        rw [addressable_cons_not hc] at h2
        rw [lenLines_cons, if_neg hc] at h1
        have hcount := ih (l' + 1) o (by omega) h2
        simp [hcount, hc]

theorem byteToLine_round (r : Rope) (l o : Nat) (h1 : l < lenLines r)
    (h2 : o ≤ addressable r l) : byteToLine r (o + lineToByte r l) = l := by
  unfold byteToLine
  rw [Nat.add_comm o (lineToByte r l)]
  exact count_take_lineToByte r l o h1 h2

/-- C3: for a cursor satisfying the Buffer offset invariant (line in range,
offset at most the line's addressable length), converting to an absolute
byte position with `as_byte_pos` and back with `as_curs_pos` returns the
same (line, offset) pair. -/
theorem c3_coordinate_round_trip (b : Buffer) (h1 : b.index < lenLines b.text)
    (h2 : b.offset ≤ addressable b.text b.index) :
    b.as_curs_pos b.as_byte_pos = (b.index, b.offset) := by
  simp only [Buffer.as_curs_pos, Buffer.as_byte_pos]
  rw [byteToLine_round b.text b.index b.offset h1 h2]
  simp

/-- Witness for C3 on the buffer "a\nb" with the cursor at line 1, offset 1. -/
theorem c3_coordinate_round_trip_witness :
    (⟨['a', '\n', 'b'], 1, 1, 0, CursorMode.normal⟩ : Buffer).as_curs_pos
        (⟨['a', '\n', 'b'], 1, 1, 0, CursorMode.normal⟩ : Buffer).as_byte_pos =
      (1, 1) :=
  c3_coordinate_round_trip ⟨['a', '\n', 'b'], 1, 1, 0, CursorMode.normal⟩
    (by decide) (by decide)

/-- The Buffer offset invariant of spec §3: the cursor line exists and the
offset does not exceed the line's addressable length. -/
def validBuf (b : Buffer) : Prop :=
  b.index < lenLines b.text ∧ b.offset ≤ addressable b.text b.index

theorem cursor_line_bounds_spec (b : Buffer) :
    (cursor_line_bounds b).index = b.index ∧
      (cursor_line_bounds b).text = b.text ∧
      (cursor_line_bounds b).offset =
        min b.offset (addressable b.text b.index) := by
  unfold cursor_line_bounds
  split_ifs with hgt
  · exact ⟨rfl, rfl, by dsimp only; omega⟩
  · exact ⟨rfl, rfl, by omega⟩

theorem validBuf_clb {c : Buffer} (h : c.index < lenLines c.text) :
    validBuf (cursor_line_bounds c) := by
  obtain ⟨h1, h2, h3⟩ := cursor_line_bounds_spec c
  unfold validBuf
  rw [h1, h2, h3]
  exact ⟨h, min_le_right _ _⟩

/-- C9: motion and boundary operations stay in bounds — moving down by 1
from the last line leaves the line index unchanged; moving up by 1 from
line 0 keeps line 0 and re-clamps the offset to the line's addressable
length; moving back saturates the offset at 0; deleting at absolute position
0 is a no-op; and every unit motion maps a buffer satisfying the offset
invariant to a buffer satisfying it. -/
theorem c9_motion_clamping :
    (∀ b : Buffer, b.index = lenLines b.text - 1 →
        (move_cursor_down_by b 1).index = b.index) ∧
      (∀ b : Buffer, b.index = 0 →
          (move_cursor_up_by b 1).index = 0 ∧
            (move_cursor_up_by b 1).offset =
              min b.offset (addressable b.text 0)) ∧
      (∀ (b : Buffer) (n : Nat),
          (move_cursor_back_by b n).offset = b.offset - n) ∧
      (∀ b : Buffer, b.as_byte_pos = 0 → delete_char b = some b) ∧
      (∀ b : Buffer, validBuf b →
          validBuf (move_cursor_up_by b 1) ∧
            validBuf (move_cursor_down_by b 1) ∧
            validBuf (move_cursor_back_by b 1) ∧
            validBuf (move_cursor_forward_by b 1)) := by
  refine ⟨?_, ?_, fun b n => rfl, ?_, ?_⟩
  · intro b hb
    have hp := lenLines_pos b.text
    unfold move_cursor_down_by
    rw [if_neg (by omega : ¬b.index + 1 < lenLines b.text)]
    exact (cursor_line_bounds_spec b).1
  · intro b hb
    unfold move_cursor_up_by
    obtain ⟨h1, h2, h3⟩ :=
      cursor_line_bounds_spec { b with index := b.index - 1 }
    rw [h1, h3]
    dsimp only
    rw [hb]
    exact ⟨rfl, rfl⟩
  · intro b hb
    unfold delete_char
    simp only [hb]
    simp
  · rintro b ⟨hv1, hv2⟩
    refine ⟨?_, ?_, ⟨hv1, ?_⟩, ?_⟩
    · exact validBuf_clb (by dsimp only; omega)
    · unfold move_cursor_down_by
      split_ifs with hlt
      · exact validBuf_clb (by dsimp only; omega)
      · exact validBuf_clb hv1
    · dsimp only [move_cursor_back_by]
      omega
    · exact validBuf_clb hv1

/-- Witness for C9 on the one-line buffer "a": moving down from the last
line keeps line 0, moving up from line 0 keeps line 0, deleting at position
0 is a no-op, and a forward move preserves the invariant. -/
theorem c9_motion_clamping_witness :
    (move_cursor_down_by ⟨['a'], 0, 0, 0, CursorMode.normal⟩ 1).index = 0 ∧
      (move_cursor_up_by ⟨['a'], 0, 0, 0, CursorMode.normal⟩ 1).index = 0 ∧
      delete_char ⟨['a'], 0, 0, 0, CursorMode.normal⟩ =
        some ⟨['a'], 0, 0, 0, CursorMode.normal⟩ ∧
      validBuf (move_cursor_forward_by ⟨['a'], 0, 0, 0, CursorMode.normal⟩ 1) :=
  ⟨c9_motion_clamping.1 ⟨['a'], 0, 0, 0, CursorMode.normal⟩ (by decide),
    (c9_motion_clamping.2.1 ⟨['a'], 0, 0, 0, CursorMode.normal⟩ rfl).1,
    c9_motion_clamping.2.2.2.1 ⟨['a'], 0, 0, 0, CursorMode.normal⟩ (by decide),
    (c9_motion_clamping.2.2.2.2 ⟨['a'], 0, 0, 0, CursorMode.normal⟩
      ⟨by decide, by decide⟩).2.2.2⟩

/-- C2 (divergence witness): under the two-key binding "g e" → MoveBack, the
dispatcher drops the pending match during the first call — `execute` looks
the same input up again in the child trie — so pressing 'g' then 'e' never
fires the command (both steps leave the buffer untouched and end Idle),
although running MoveBack would have changed the buffer; and once a pending
Leaf is stored (binding "g g"), it executes on any subsequent key ('z' here)
and `current_node` is never reset, so the dispatcher stays Pending instead
of returning to Idle. -/
theorem c2_trie_resolution_divergence :
    execute none ⟨Event.char 'g', false, false⟩
        ⟨['a', 'b'], 0, 1, 0, CursorMode.normal⟩
        [(Event.char 'g',
          KeymapNode.node
            [(Event.char 'e', KeymapNode.leaf CommandType.moveBack)])] =
      some (none, ⟨['a', 'b'], 0, 1, 0, CursorMode.normal⟩) ∧
    execute none ⟨Event.char 'e', false, false⟩
        ⟨['a', 'b'], 0, 1, 0, CursorMode.normal⟩
        [(Event.char 'g',
          KeymapNode.node
            [(Event.char 'e', KeymapNode.leaf CommandType.moveBack)])] =
      some (none, ⟨['a', 'b'], 0, 1, 0, CursorMode.normal⟩) ∧
    execCommand CommandType.moveBack
        ⟨['a', 'b'], 0, 1, 0, CursorMode.normal⟩ ≠
      some ⟨['a', 'b'], 0, 1, 0, CursorMode.normal⟩ ∧
    execute (some (KeymapNode.leaf CommandType.moveBack))
        ⟨Event.char 'z', false, false⟩
        ⟨['a', 'b'], 0, 1, 0, CursorMode.normal⟩
        [(Event.char 'g',
          KeymapNode.node
            [(Event.char 'g', KeymapNode.leaf CommandType.moveBack)])] =
      some (some (KeymapNode.leaf CommandType.moveBack),
        ⟨['a', 'b'], 0, 0, 0, CursorMode.normal⟩) :=
  ⟨rfl, rfl, by decide, rfl⟩

end Duzzy
